import Mathlib

/-!
# dirTree: a shallow embedding of `main.go`

The Go program walks a directory with `filepath.Walk`, collects one
`Fileinfo` per reported object (`getPathList`), sorts the records
(`sortPaths`), links parents, children and neighbours
(`detectRelativeNodes`, `defineNeighborhoods`), renders one fragment per
record (`generateNodeOutputs`) and concatenates the fragments depth first
(`outputChildren`, `dirTree`).

Conventions of the embedding:

* Go strings are Lean `String`s.  The library calls `strings.Trim` and
  `strings.Split` are written on the character lists; the cut set `"./"`
  and the separator `"/"` are ASCII, so working on code points or on bytes
  gives the same result, and `<` on strings (byte order in Go) is the code
  point order of Lean.
* `os.PathSeparator` is the Unix separator `/`.
* A `*Fileinfo` is the index of the record in the slice `PathList`.  The
  slice is sorted before any pointer field is written, and no later pass
  moves a record, so an index names one record for the rest of the run.
  `nil` is `none`.  The program only ever stores positions of the slice;
  where the model reads an index that is not one, it answers `none`
  (the empty path in `defineNodeNeighborhood`).
* The two loops that follow pointers (`for true` in `generateNodeOutput`,
  the recursion of `outputChildren`) take a fuel argument and return
  `none` when it runs out.
-/

namespace DirTree

/-! ## Library functions used by the program -/

/-- The path separator, `os.PathSeparator` on Unix. -/
def PathSeparator : Char := '/'

/-- Go `strings.Trim(s, cutset)`: drop every leading and every trailing
character of `s` that occurs in `cutset`. -/
def stringsTrim (s cutset : String) : String :=
  ⟨((s.data.dropWhile (fun c => cutset.data.contains c)).reverse.dropWhile
      (fun c => cutset.data.contains c)).reverse⟩

/-- Worker of `stringsSplit`: `cur` holds the characters of the current
piece, last one first. -/
def splitChars (sep : Char) : List Char → List Char → List String
  | [], cur => [⟨cur.reverse⟩]
  | c :: cs, cur =>
    if c = sep then ⟨cur.reverse⟩ :: splitChars sep cs []
    else splitChars sep cs (c :: cur)

/-- Go `strings.Split(s, sep)` for a one character separator: the pieces
between the separators; a string without separator gives one piece. -/
def stringsSplit (s : String) (sep : Char) : List String :=
  splitChars sep s.data []

/-- Go `strconv.FormatInt(n, 10)`. -/
def formatInt (n : Int) : String :=
  if n < 0 then "-" ++ toString n.natAbs else toString n.natAbs

/-- Go compares strings byte by byte; on the character lists this is the
lexicographic order of the code points.  `lessChars a b` is `a < b`. -/
def lessChars : List Char → List Char → Bool
  | _, [] => false
  | [], _ :: _ => true
  | a :: as, b :: bs =>
    if a.toNat < b.toNat then true
    else if b.toNat < a.toNat then false
    else lessChars as bs

/-- Go `s < t` on strings. -/
def stringLess (s t : String) : Bool :=
  lessChars s.data t.data

/-! ## The walked file system

`filepath.Walk` is a library function.  It is modelled on a finite tree of
named objects: it reports the root under the path string it was given, and
every other object under `filepath.Join(dir, name)`, directories before
their content.  Go reads the names of a directory in lexical order; the
model visits the entries in the order of the list, so a tree that lists
its entries in lexical order is walked as Go walks it. -/

/-- An object of the file system: a file with its size in bytes, or a
directory with its entries. -/
inductive FsNode where
  | file (name : String) (size : Int)
  | dir (name : String) (entries : List FsNode)
  deriving Repr

/-- Name of an object inside its directory. -/
def FsNode.name : FsNode → String
  | .file name _ => name
  | .dir name _ => name

/-- One call of the walk function: the reported path, `info.Name()`,
`info.Size()`, `info.IsDir()` and whether `err != nil`. -/
structure WalkItem where
  path : String
  name : String
  size : Int
  isDir : Bool
  err : Bool
  deriving DecidableEq, Repr

/-- Worker of `filepathClean` on the pieces between separators: `out` is the
cleaned path so far, last element first. -/
def cleanSegments (rooted : Bool) : List String → List String → List String
  | [], out => out.reverse
  | seg :: rest, out =>
    if seg = "" ∨ seg = "." then cleanSegments rooted rest out
    else if seg = ".." then
      match out with
      | [] => if rooted then cleanSegments rooted rest [] else cleanSegments rooted rest [".."]
      | top :: below =>
        if top = ".." then cleanSegments rooted rest (".." :: top :: below)
        else cleanSegments rooted rest below
    else cleanSegments rooted rest (seg :: out)

/-- Go `filepath.Clean` on Unix: empty and `.` elements are dropped, `..`
removes the element before it, the result of an empty path is `.`. -/
def filepathClean (path : String) : String :=
  if path = "" then "."
  else
    let rooted := path.data.head? = some PathSeparator
    let body := "/".intercalate (cleanSegments rooted (stringsSplit path PathSeparator) [])
    if rooted then "/" ++ body
    else if body = "" then "."
    else body

/-- Go `filepath.Join(dir, name)` for two elements: empty elements are
ignored, the rest is joined with the separator and cleaned. -/
def filepathJoin (dir name : String) : String :=
  if dir = "" then (if name = "" then "" else filepathClean name)
  else if name = "" then filepathClean dir
  else filepathClean (dir ++ "/" ++ name)

/-- The name `os.Lstat(path)` reports for the root: trailing separators are
removed (the first character stays), then everything up to the last
separator. -/
def osBasename (path : String) : String :=
  match path.data.reverse.dropWhile (fun c => c = PathSeparator) with
  | [] => if path = "" then "" else "/"
  | last :: before => ⟨(last :: before.takeWhile (fun c => c ≠ PathSeparator)).reverse⟩

/-- The calls `filepath.Walk` makes for the object `node` found at `path`,
and (`walkEntries`) for the entries of the directory at `dir`. -/
def walkNode (path : String) : FsNode → List WalkItem
  | .file name size => [{ path := path, name := name, size := size, isDir := false, err := false }]
  | .dir name entries =>
    { path := path, name := name, size := 0, isDir := true, err := false } :: walkEntries path entries
where
  /-- The calls for the entries of the directory at `dir`. -/
  walkEntries (dir : String) : List FsNode → List WalkItem
  | [] => []
  | e :: es => walkNode (filepathJoin dir e.name) e ++ walkEntries dir es

/-- The calls of `filepath.Walk(root, fn)`.  `entries = none` is a root that
cannot be read: the walk function is called once, with an error.
Otherwise the root is a directory holding `entries`. -/
def filepathWalk (root : String) (entries : Option (List FsNode)) : List WalkItem :=
  match entries with
  | none => [{ path := root, name := "", size := 0, isDir := false, err := true }]
  | some es =>
    { path := root, name := osBasename root, size := 0, isDir := true, err := false }
      :: walkNode.walkEntries root es

/-! ## The program -/

/-- The map `neighborhood` of a record.  Its only keys are `"prev"` and
`"next"`; a key that is absent reads as `nil`, as in the Go map. -/
structure Neighborhood where
  prev : Option Nat
  next : Option Nat
  deriving DecidableEq, Repr

/-- The record `Fileinfo`.  Pointers to records are indices into the slice
that holds them. -/
structure Fileinfo where
  Name : String
  Level : Int
  Path : String
  Parent : String
  ParentNode : Option Nat
  Size : String
  IsDir : Bool
  Last : Bool
  Children : List Nat
  Check : Bool
  neighborhood : Neighborhood
  output : String
  deriving DecidableEq, Repr

/-- The type `SortByPath`: a slice of records. -/
abbrev SortByPath := List Fileinfo

/-- The type `lessFunc`. -/
abbrev lessFunc := Fileinfo → Fileinfo → Bool

/-- The comparison `filename` of `sortPaths`. -/
def filename : lessFunc := fun c1 c2 => stringLess c1.Name c2.Name

/-- The comparison `level` of `sortPaths`. -/
def level : lessFunc := fun c1 c2 => decide (c1.Level < c2.Level)

/-- The method `multiSorter.Less` on two records: every comparison but the
last decides when it tells the records apart, the last one decides alone.
(`OrderedBy` is only called with two comparisons; Go would fail on an empty
list, the model answers `false`.) -/
def multiSorterLess : List lessFunc → Fileinfo → Fileinfo → Bool
  | [], _, _ => false
  | [less], p, q => less p q
  | less :: more :: rest, p, q =>
    if less p q then true
    else if less q p then false
    else multiSorterLess (more :: rest) p q

/-- Inner loop of the insertion sort: the record `x` moves left past every
record it is `Less` than.  The sorted part is given last element first. -/
def insertionStep (less : Fileinfo → Fileinfo → Bool) (x : Fileinfo) : List Fileinfo → List Fileinfo
  | [] => [x]
  | y :: before => if less x y then y :: insertionStep less x before else x :: y :: before

/-- Go `sort.Sort` with the given `Less`.  The library sort is a comparison
sort that is not stable; on a slice of at most six elements it runs as the
insertion sort written here (`for i; for j := i; j > 0 && Less(j, j-1); j--
Swap(j, j-1)`). -/
def sortSort (less : Fileinfo → Fileinfo → Bool) (changes : List Fileinfo) : List Fileinfo :=
  (changes.foldl (fun sorted x => insertionStep less x sorted) []).reverse

/-- The method `sortPaths`: `OrderedBy(level, filename).Sort(paths)`. -/
def sortPaths (paths : SortByPath) : SortByPath :=
  sortSort (multiSorterLess [level, filename]) paths

/-- The path a directory record stands for, as `detectRelativeNodes` and
`defineNodeNeighborhood` compute it:
`strings.Trim(Parent + separator + Name, separator)`. -/
def directoryPath (parentDirectory : Fileinfo) : String :=
  stringsTrim (parentDirectory.Parent ++ "/" ++ parentDirectory.Name) "/"

/-- Apply `f` to the record at index `i` (a write through the pointer `i`). -/
def updateAt (f : Fileinfo → Fileinfo) : Nat → List Fileinfo → List Fileinfo
  | _, [] => []
  | 0, x :: xs => f x :: xs
  | i + 1, x :: xs => x :: updateAt f i xs

/-- Inner loop of `detectRelativeNodes` for the directory at index `i`:
every record `j` whose `Parent` is the path of the directory is appended to
the `Children` of `i`, and its `ParentNode` is set to `i`. -/
def detectChildren (i : Nat) (parentDirectoryPath : String) (PathList : List Fileinfo) :
    List Fileinfo :=
  (List.range PathList.length).foldl
    (fun acc j =>
      match acc[j]? with
      | none => acc
      | some subItem =>
        if subItem.Parent = parentDirectoryPath then
          updateAt (fun child => { child with ParentNode := some i }) j
            (updateAt (fun dir => { dir with Children := dir.Children ++ [j] }) i acc)
        else acc)
    PathList

/-- The method `detectRelativeNodes`. -/
def detectRelativeNodes (paths : SortByPath) : SortByPath :=
  (List.range paths.length).foldl
    (fun PathList i =>
      match PathList[i]? with
      | none => PathList
      | some item =>
        if item.IsDir = true then detectChildren i (directoryPath item) PathList
        else PathList)
    paths

/-- The loop of `defineNodeNeighborhood` from index `j` on: `items` is the
rest of the slice, `foundTrigger` and `neighborhood` are the variables of
the Go function.  The loop stops at the first group member after the
current node. -/
def neighborhoodLoop (parentDirectoryPath currentPath : String) :
    List Fileinfo → Nat → Bool → Neighborhood → Neighborhood
  | [], _, _, neighborhood => neighborhood
  | item :: items, j, foundTrigger, neighborhood =>
    if item.Parent = parentDirectoryPath then
      if item.Path = currentPath then
        neighborhoodLoop parentDirectoryPath currentPath items (j + 1) true neighborhood
      else if foundTrigger = false then
        neighborhoodLoop parentDirectoryPath currentPath items (j + 1) foundTrigger
          { neighborhood with prev := some j }
      else
        { neighborhood with next := some j }
    else
      neighborhoodLoop parentDirectoryPath currentPath items (j + 1) foundTrigger neighborhood

/-- The map `defineNodeNeighborhood` stores in `CurrentNode`. -/
def defineNodeNeighborhood (PathList : List Fileinfo) (CurrentNode : Fileinfo) : Neighborhood :=
  let parentDirectoryPath : String :=
    match CurrentNode.ParentNode with
    | none => ""
    | some p =>
      match PathList[p]? with
      | none => ""
      | some parentDirectory => directoryPath parentDirectory
  neighborhoodLoop parentDirectoryPath CurrentNode.Path PathList 0 false
    { prev := none, next := none }

/-- The method `defineNeighborhoods`. -/
def defineNeighborhoods (paths : SortByPath) : SortByPath :=
  (List.range paths.length).foldl
    (fun PathList i =>
      match PathList[i]? with
      | none => PathList
      | some CurrentNode =>
        updateAt (fun node => { node with neighborhood := defineNodeNeighborhood PathList CurrentNode })
          i PathList)
    paths

/-- The loop `for true` of `generateNodeOutput`: `node` is the record the
loop stands on, `output` the text built so far.  `none` when the fuel runs
out before a record without `ParentNode` is reached. -/
def ancestorLoop (PathList : List Fileinfo) : Nat → Fileinfo → String → Option String
  | 0, _, _ => none
  | fuel + 1, node, output =>
    match node.ParentNode with
    | none => some output
    | some p =>
      match PathList[p]? with
      | none => none
      | some parent =>
        let tab := if parent.neighborhood.next = none then "\t" else "│\t"
        ancestorLoop PathList fuel parent (tab ++ output)

/-- The text `generateNodeOutput` stores in `CurrentNode.output`. -/
def generateNodeOutput (PathList : List Fileinfo) (fuel : Nat) (CurrentNode : Fileinfo) :
    Option String :=
  let output := if CurrentNode.neighborhood.next = none then "└───" else "├───"
  let output := output ++ (CurrentNode.Name ++ CurrentNode.Size ++ "\n")
  ancestorLoop PathList fuel CurrentNode output

/-- The method `generateNodeOutputs`. -/
def generateNodeOutputs (fuel : Nat) (paths : SortByPath) : Option SortByPath :=
  (List.range paths.length).foldl
    (fun state i =>
      match state with
      | none => none
      | some PathList =>
        match PathList[i]? with
        | none => some PathList
        | some CurrentNode =>
          match generateNodeOutput PathList fuel CurrentNode with
          | none => none
          | some output => some (updateAt (fun node => { node with output := output }) i PathList))
    (some paths)

/-- The walk function of `getPathList`, applied to one call of the walk:
the slice `PathList` after the call. -/
def walkFn (printFiles : Bool) (PathList : List Fileinfo) (item : WalkItem) : List Fileinfo :=
  if item.err = false then
    if printFiles = false ∧ item.isDir = false then PathList
    else
      let path := stringsTrim item.path "./"
      let pathSlice := stringsSplit (stringsTrim path "/") PathSeparator
      if pathSlice.length = 1 then PathList
      else
        PathList ++ [{
          Name := item.name
          Level := (pathSlice.length : Int) - 1
          Path := path
          Parent := stringsTrim
            (((pathSlice.drop 1).take (pathSlice.length - 2)).foldl
              (fun parent seg => parent ++ seg ++ "/") "") "/"
          ParentNode := none
          Size :=
            if item.isDir then ""
            else if item.size > 0 then " (" ++ formatInt item.size ++ "b)"
            else " (empty)"
          IsDir := item.isDir
          Last := false
          Children := []
          Check := false
          neighborhood := { prev := none, next := none }
          output := "" }]
  else PathList

/-- The function `getPathList` on the calls of the walk. -/
def getPathListOf (walk : List WalkItem) (printFiles : Bool) : SortByPath :=
  walk.foldl (walkFn printFiles) []

/-- The function `getPathList`: `entries` is what the directory named by
`path` holds (`none` when it cannot be read). -/
def getPathList (entries : Option (List FsNode)) (path : String) (printFiles : Bool) : SortByPath :=
  getPathListOf (filepathWalk path entries) printFiles

/-- The function `outputChildren`: the value of `*output` after the call,
`none` when the fuel runs out. -/
def outputChildren (PathList : List Fileinfo) : Nat → List Nat → String → Option String
  | 0, _, _ => none
  | _ + 1, [], output => some output
  | fuel + 1, item :: nodes, output =>
    match PathList[item]? with
    | none => none
    | some node =>
      match outputChildren PathList fuel node.Children (output ++ node.output) with
      | none => none
      | some output => outputChildren PathList fuel nodes output

/-- The indices of the records with `Level == 1`, in slice order (the slice
`filteredTree` of `dirTree`). -/
def filteredTree (outputList : List Fileinfo) : List Nat :=
  (List.range outputList.length).filter
    (fun i => match outputList[i]? with
      | none => false
      | some item => item.Level = 1)

/-- What a call of `dirTree` does: the bytes written to `out` and the
returned error (`none` is `nil`). -/
structure DirTreeResult where
  written : String
  err : Option String
  deriving DecidableEq, Repr

/-- The chain `PathList.sortPaths().detectRelativeNodes().defineNeighborhoods().generateNodeOutputs()`
of `dirTree`: the records as they stand when the output is assembled. -/
def resolvePathList (fuel : Nat) (PathList : SortByPath) : Option SortByPath :=
  generateNodeOutputs fuel (defineNeighborhoods (detectRelativeNodes (sortPaths PathList)))

/-- The body of `dirTree` after `getPathList`: the string passed to
`out.Write`. -/
def renderPathList (fuel : Nat) (PathList : SortByPath) : Option String :=
  match resolvePathList fuel PathList with
  | none => none
  | some outputList => outputChildren outputList fuel (filteredTree outputList) ""

/-- The function `dirTree`; `none` when the fuel runs out. -/
def dirTree (fuel : Nat) (entries : Option (List FsNode)) (path : String) (printFiles : Bool) :
    Option DirTreeResult :=
  match renderPathList fuel (getPathList entries path printFiles) with
  | none => none
  | some output => some { written := output, err := none }

/-! ## Inputs used below

Each tree lists the entries of a directory in lexical order, the order in
which Go walks them. -/

/-- Number of newline characters of a string: its number of lines when
every line is terminated. -/
def lineCount (s : String) : Nat :=
  (s.data.filter (fun c => c = '\n')).length

/-- A directory holding `a/x.txt` (5 bytes) and the empty directory `b`. -/
def scenarioTree : List FsNode :=
  [.dir "a" [.file "x.txt" 5], .dir "b" []]

/-- A directory holding `a/b/x` and `c/b`, all of them directories. -/
def twoBranchTree : List FsNode :=
  [.dir "a" [.dir "b" [.dir "x" []]], .dir "c" [.dir "b" []]]

/-- A directory holding a directory named `...` with `c/d` below it. -/
def dotsTree : List FsNode :=
  [.dir "..." [.dir "c" [.dir "d" []]]]

/-- A directory holding the two directories `a` and `a.`. -/
def trailingDotTree : List FsNode :=
  [.dir "a" [], .dir "a." []]

/-- A directory holding `a/f` (1 byte) and `c/f` (2 bytes). -/
def twoFilesTree : List FsNode :=
  [.dir "a" [.file "f" 1], .dir "c" [.file "f" 2]]

/-- A directory holding the files `a/...` (1 byte) and `b/...` (2 bytes),
both named by three dots. -/
def dotFilesTree : List FsNode :=
  [.dir "a" [.file "..." 1], .dir "b" [.file "..." 2]]

/-! ## Notions used to state the claims -/

/-- The anonymous function of `getPathList` that builds the field `Size`
from `info.Size()` and `info.IsDir()` (main.go 238-246). -/
def sizeString (size : Int) (isDir : Bool) : String :=
  if isDir then ""
  else if size > 0 then " (" ++ formatInt size ++ "b)"
  else " (empty)"

/-- The fragments of a list of records, one after the other. -/
def concatOutputs : List Fileinfo → String
  | [] => ""
  | e :: es => e.output ++ concatOutputs es

/-- The branch glyph `generateNodeOutput` chooses for a record. -/
def branchGlyph (E : Fileinfo) : String :=
  if E.neighborhood.next = none then "└───" else "├───"

/-- The indentation unit an ancestor contributes: a bar when it has a next
sibling, a bare tab when it is the last child. -/
def indentUnit (A : Fileinfo) : String :=
  if A.neighborhood.next = none then "\t" else "│\t"

/-- The relation `chain` is the `ParentNode` chain of `E` in `PathList`:
the direct parent first, then its parent, up to a record without
`ParentNode`. -/
def ancestorChain (PathList : List Fileinfo) : Fileinfo → List Fileinfo → Prop
  | E, [] => E.ParentNode = none
  | E, A :: rest => (∃ p, E.ParentNode = some p ∧ PathList[p]? = some A) ∧ ancestorChain PathList A rest

/-- The units of a chain of ancestors, written from the furthest ancestor
down to the direct parent (the chain lists the direct parent first). -/
def unitsOf : List Fileinfo → String
  | [] => ""
  | A :: rest => unitsOf rest ++ indentUnit A

/-- The record of `a` in the directory holding `a/x.txt` and `b`, as it
stands when the output is assembled (root `testdata`, with files). -/
def recordA : Fileinfo :=
  { Name := "a", Level := 1, Path := "testdata/a", Parent := "", ParentNode := none,
    Size := "", IsDir := true, Last := false, Children := [2], Check := false,
    neighborhood := { prev := none, next := some 1 }, output := "├───a\n" }

/-- The record of `b` in the same run. -/
def recordB : Fileinfo :=
  { Name := "b", Level := 1, Path := "testdata/b", Parent := "", ParentNode := none,
    Size := "", IsDir := true, Last := false, Children := [], Check := false,
    neighborhood := { prev := some 0, next := none }, output := "└───b\n" }

/-- The record of `a/x.txt` in the same run. -/
def recordX : Fileinfo :=
  { Name := "x.txt", Level := 2, Path := "testdata/a/x.txt", Parent := "a",
    ParentNode := some 0, Size := " (5b)", IsDir := false, Last := false, Children := [],
    Check := false, neighborhood := { prev := none, next := none },
    output := "│\t└───x.txt (5b)\n" }

/-- The slice of the three records, in sorted order. -/
def scenarioRecords : List Fileinfo :=
  [recordA, recordB, recordX]

/-- A directory holding `.../c` and the directories `a/...` and `b/...`
(three directories are named by three dots). -/
def threeDotsTree : List FsNode :=
  [.dir "..." [.dir "c" []], .dir "a" [.dir "..." []], .dir "b" [.dir "..." []]]

/-- Number of characters of `Parent` after its leading separators.  A
record linked to a directory by `detectRelativeNodes` has a larger rank
than the directory when the name of the directory is a plain name. -/
def parentRank (e : Fileinfo) : Nat :=
  (e.Parent.data.dropWhile (fun c => "/".data.contains c)).length

/-- Every link of the slice points to a record it matches by path: a
`ParentNode` to a record whose path is the `Parent` of the child, a member
of `Children` to a record whose `Parent` is the path of the directory. -/
def Linked (PathList : List Fileinfo) : Prop :=
  ∀ (k : Nat) (e : Fileinfo), PathList[k]? = some e →
    (∀ p, e.ParentNode = some p → ∃ D, PathList[p]? = some D ∧ e.Parent = directoryPath D) ∧
    (∀ j, j ∈ e.Children → ∃ C, PathList[j]? = some C ∧ C.Parent = directoryPath e)

/-- Every link of the slice goes to a record of the slice, a `ParentNode`
to one of smaller rank and a member of `Children` to one of larger rank. -/
def WellRanked (PathList : List Fileinfo) : Prop :=
  ∀ (k : Nat) (e : Fileinfo), PathList[k]? = some e →
    (∀ p, e.ParentNode = some p → ∃ A, PathList[p]? = some A ∧ parentRank A < parentRank e) ∧
    (∀ j, j ∈ e.Children → ∃ C, PathList[j]? = some C ∧ parentRank e < parentRank C)

/-- Every `Name` is non-empty and holds no path separator. -/
def plainNames (l : List Fileinfo) : Prop :=
  ∀ e ∈ l, e.Name ≠ "" ∧ ∀ c ∈ e.Name.data, c ≠ '/'

/-- The records carry no link yet, as `getPathList` builds them. -/
def freshEntries (l : List Fileinfo) : Prop :=
  ∀ e ∈ l, e.ParentNode = none ∧ e.Children = []

/-- The record at index `j` has `ParentNode` `p`. -/
def parentLink (PathList : List Fileinfo) (j p : Nat) : Prop :=
  ∃ e, PathList[j]? = some e ∧ e.ParentNode = some p

/-- The record at index `i` has `j` among its `Children`. -/
def childLink (PathList : List Fileinfo) (i j : Nat) : Prop :=
  ∃ e, PathList[i]? = some e ∧ j ∈ e.Children

/-- A directory record with an empty `Name` and an empty `Parent`, without
links, as `getPathList` would build it. -/
def loopEntry : Fileinfo :=
  { Name := "", Level := 1, Path := "", Parent := "", ParentNode := none, Size := "",
    IsDir := true, Last := false, Children := [], Check := false,
    neighborhood := { prev := none, next := none }, output := "" }

/-- The record `loopEntry` after `detectRelativeNodes`: it is its own
`ParentNode` and its own child. -/
def loopLinked : Fileinfo :=
  { loopEntry with ParentNode := some 0, Children := [0] }

/-- The records `getPathList` collects for the directory holding `a/x.txt`
and `b` (root `testdata`, with files). -/
def scenarioEntries : List Fileinfo :=
  getPathList (some scenarioTree) "testdata" true

/-! ## The claims -/

/-- C1: for a root directory holding the empty directory `b` and the
directory `a` with the 5-byte file `x.txt`, `dirTree` should write
`├───a\n└───b\n` without files and `├───a\n│\t└───x.txt (5b)\n└───b\n` with
files.  The code does so when the root is named by the one-segment path
`testdata`; called with the path `.` on the same directory it writes the
empty string without files and the single line `└───x.txt (5b)\n` with
files. -/
theorem C1_scenario_output_depends_on_root_path :
    dirTree 10 (some scenarioTree) "testdata" false
        = some { written := "├───a\n└───b\n", err := none } ∧
    dirTree 10 (some scenarioTree) "testdata" true
        = some { written := "├───a\n│\t└───x.txt (5b)\n└───b\n", err := none } ∧
    dirTree 10 (some scenarioTree) "." false
        = some { written := "", err := none } ∧
    dirTree 10 (some scenarioTree) "." true
        = some { written := "└───x.txt (5b)\n", err := none } := by
  decide

/-- C2: the number of lines written should equal the number of collected
records.  For the root `.` holding `a/b/x` and `c/b`, `getPathList`
collects 3 records and `dirTree` writes 4 lines (the record of `x` is a
child of both records named `b`); for the root `testdata` holding
`.../c/d` it collects 2 records and `dirTree` writes nothing. -/
theorem C2_line_count_differs_from_record_count :
    (getPathList (some twoBranchTree) "." false).length = 3 ∧
    dirTree 10 (some twoBranchTree) "." false
        = some { written := "├───b\n\t└───x\n└───b\n\t└───x\n", err := none } ∧
    (dirTree 10 (some twoBranchTree) "." false).map (fun r => lineCount r.written) = some 4 ∧
    (getPathList (some dotsTree) "testdata" false).length = 2 ∧
    dirTree 10 (some dotsTree) "testdata" false = some { written := "", err := none } ∧
    (dirTree 10 (some dotsTree) "testdata" false).map (fun r => lineCount r.written) = some 0 := by
  decide

/-- C3: the line of a directory should be followed by the lines of its
descendants, and no line should come before the line of an ancestor.  For
the root `.` holding `a/b/x` and `c/b` the record of `x` (index 2) has the
record of `c/b` (index 1) as `ParentNode`, and the output is the fragments
of the records 0, 2, 1, 2 in this order: the line of `x` comes before the
line of its parent.  For the root `testdata` holding `.../c/d` the records
of the directories `c` and `d` are built but none of their lines is
written. -/
theorem C3_child_line_before_parent_line :
    (resolvePathList 10 (getPathList (some twoBranchTree) "." false)).map
        (fun l => l.map (fun e => e.Path)) = some ["a/b", "c/b", "a/b/x"] ∧
    (resolvePathList 10 (getPathList (some twoBranchTree) "." false)).map
        (fun l => l.map (fun e => e.ParentNode)) = some [none, none, some 1] ∧
    (resolvePathList 10 (getPathList (some twoBranchTree) "." false)).map
        (fun l => l.map (fun e => e.Children)) = some [[2], [2], []] ∧
    (resolvePathList 10 (getPathList (some twoBranchTree) "." false)).map
        (fun l => l.map (fun e => e.output)) = some ["├───b\n", "└───b\n", "\t└───x\n"] ∧
    dirTree 10 (some twoBranchTree) "." false
      = some { written := "├───b\n" ++ "\t└───x\n" ++ "└───b\n" ++ "\t└───x\n", err := none } ∧
    (resolvePathList 10 (getPathList (some dotsTree) "testdata" false)).map
        (fun l => l.map (fun e => (e.Path, e.IsDir, e.output)))
      = some [("testdata/.../c", true, "└───c\n"), ("testdata/.../c/d", true, "\t└───d\n")] ∧
    dirTree 10 (some dotsTree) "testdata" false = some { written := "", err := none } := by
  decide

/-- C4: the fragment of an entry at depth d should start with d−1
indentation units.  For the root `testdata` the directory `.../c`, two
segments below the root and of `Level` 2, gets the fragment `└───c\n` with
no unit (and `.../c/d`, of `Level` 3, gets one unit); for the root `.` the
file `a/x.txt`, two segments below the root, gets `Level` 1 and the
fragment `└───x.txt (5b)\n` with no unit. -/
theorem C4_fragment_without_indentation_at_depth_two :
    (resolvePathList 10 (getPathList (some dotsTree) "testdata" false)).map
        (fun l => l.map (fun e => (e.Path, e.Level, e.output)))
      = some [("testdata/.../c", 2, "└───c\n"), ("testdata/.../c/d", 3, "\t└───d\n")] ∧
    (resolvePathList 10 (getPathList (some scenarioTree) "." true)).map
        (fun l => l.map (fun e => (e.Path, e.Level, e.output)))
      = some [("a/x.txt", 1, "└───x.txt (5b)\n")] := by
  decide

/-- C5: in a sibling group exactly one entry should have no `next`
neighbour and use the corner glyph.  For the root `testdata` holding the
directories `a` and `a.`, both records get the `Path` `testdata/a`, both
have `neighborhood["next"] == nil`, and both fragments use `└───`. -/
theorem C5_two_siblings_without_next :
    (resolvePathList 10 (getPathList (some trailingDotTree) "testdata" false)).map
        (fun l => l.map (fun e => (e.Name, e.Parent, e.Path)))
      = some [("a", "", "testdata/a"), ("a.", "", "testdata/a")] ∧
    (resolvePathList 10 (getPathList (some trailingDotTree) "testdata" false)).map
        (fun l => l.map (fun e => e.neighborhood.next)) = some [none, none] ∧
    (resolvePathList 10 (getPathList (some trailingDotTree) "testdata" false)).map
        (fun l => l.map (fun e => e.output)) = some ["└───a\n", "└───a.\n"] ∧
    dirTree 10 (some trailingDotTree) "testdata" false
      = some { written := "└───a\n└───a.\n", err := none } := by
  decide

/-- C6: the output should not depend on the order of the collected
records.  For the root `.` holding `a/f` (1 byte) and `c/f` (2 bytes) the
two records have the same `Level`, `Name` and `Parent`; the pipeline run on
them in the collected order and in the opposite order writes two different
strings.  The same happens for the root `testdata` holding the files
`a/...` (1 byte) and `b/...` (2 bytes). -/
theorem C6_output_depends_on_record_order :
    (getPathList (some twoFilesTree) "." true).map
        (fun e => (e.Name, e.Level, e.Parent, e.Path, e.Size))
      = [("f", 1, "", "a/f", " (1b)"), ("f", 1, "", "c/f", " (2b)")] ∧
    renderPathList 10 (getPathList (some twoFilesTree) "." true)
      = some "├───f (1b)\n└───f (2b)\n" ∧
    renderPathList 10 (getPathList (some twoFilesTree) "." true).reverse
      = some "├───f (2b)\n└───f (1b)\n" ∧
    renderPathList 10 (getPathList (some dotFilesTree) "testdata" true)
      = some "├───... (1b)\n├───... (2b)\n├───a\n├───b\n" ∧
    renderPathList 10 (getPathList (some dotFilesTree) "testdata" true).reverse
      = some "├───... (2b)\n├───... (1b)\n├───a\n├───b\n" := by
  decide

/-- C7: an object k segments below the root should get `Level` k for every
root path string.  For the root `.` the file `a/x.txt` (k = 2) gets `Level`
1 and the directories `a` and `b` (k = 1) get no record; for the root `a/b`
the directory `c` (k = 1) gets `Level` 2. -/
theorem C7_level_differs_from_depth :
    filepathWalk "." (some scenarioTree)
      = [{ path := ".", name := ".", size := 0, isDir := true, err := false },
         { path := "a", name := "a", size := 0, isDir := true, err := false },
         { path := "a/x.txt", name := "x.txt", size := 5, isDir := false, err := false },
         { path := "b", name := "b", size := 0, isDir := true, err := false }] ∧
    (getPathList (some scenarioTree) "." true).map (fun e => (e.Path, e.Level))
      = [("a/x.txt", 1)] ∧
    (getPathList (some [.dir "c" []]) "a/b" true).map (fun e => (e.Path, e.Level))
      = [("a/b", 1), ("a/b/c", 2)] := by
  decide

/-- C8: the root should never get a record nor a line.  For the root path
`a/b` holding the directory `c`, the first record `getPathList` builds is
the root itself (`Name` `b`, `Path` `a/b`, `Level` 1), and the first line
`dirTree` writes is `└───b\n`. -/
theorem C8_root_collected_and_written :
    (getPathList (some [.dir "c" []]) "a/b" false).map
        (fun e => (e.Name, e.Path, e.Level, e.Parent))
      = [("b", "a/b", 1, ""), ("c", "a/b/c", 2, "b")] ∧
    dirTree 10 (some [.dir "c" []]) "a/b" false
      = some { written := "└───b\n\t└───c\n", err := none } := by
  decide

/-- C9: for an empty root directory `dirTree` should write the empty
string for every root path string.  For the root paths `a/b` and `/tmp/x`
the walk reports the root alone and `dirTree` writes one line, with
`printFiles` false and true. -/
theorem C9_empty_root_writes_a_line :
    filepathWalk "a/b" (some [])
      = [{ path := "a/b", name := "b", size := 0, isDir := true, err := false }] ∧
    dirTree 10 (some []) "a/b" false = some { written := "└───b\n", err := none } ∧
    dirTree 10 (some []) "a/b" true = some { written := "└───b\n", err := none } ∧
    dirTree 10 (some []) "/tmp/x" false = some { written := "└───x\n", err := none } ∧
    dirTree 10 (some []) "/tmp/x" true = some { written := "└───x\n", err := none } := by
  decide

/-- C10: every object other than the root that the walk reports without
error should get one record (a file only with `printFiles`).  For the root
`.` holding `a/x.txt` and `b` the walk reports `a`, `a/x.txt` and `b`
without error; `getPathList` builds no record without files and the single
record of `x.txt` with files: the directories `a` and `b` are dropped. -/
theorem C10_directories_below_dot_dropped :
    (filepathWalk "." (some scenarioTree)).map (fun w => (w.path, w.isDir, w.err))
      = [(".", true, false), ("a", true, false), ("a/x.txt", false, false),
         ("b", true, false)] ∧
    getPathList (some scenarioTree) "." false = [] ∧
    (getPathList (some scenarioTree) "." true).map (fun e => (e.Name, e.Path, e.IsDir))
      = [("x.txt", "a/x.txt", false)] := by
  decide

/-! ## Lemmas: the fields a pass leaves alone -/

theorem updateAt_length (f : Fileinfo → Fileinfo) (i : Nat) (l : List Fileinfo) :
    (updateAt f i l).length = l.length := by
  induction l generalizing i with
  | nil => cases i <;> rfl
  | cons x xs ih => cases i with
    | zero => rfl
    | succ i => simp [updateAt, ih]

theorem updateAt_map {β : Type} (g : Fileinfo → β) (f : Fileinfo → Fileinfo)
    (hf : ∀ x, g (f x) = g x) (i : Nat) (l : List Fileinfo) :
    (updateAt f i l).map g = l.map g := by
  induction l generalizing i with
  | nil => cases i <;> rfl
  | cons x xs ih => cases i with
    | zero => simp [updateAt, hf]
    | succ i => simp [updateAt, ih]

theorem foldl_map_invariant {β γ : Type} (g : Fileinfo → β) (step : List Fileinfo → γ → List Fileinfo)
    (hstep : ∀ l c, (step l c).map g = l.map g) (cs : List γ) (l : List Fileinfo) :
    (cs.foldl step l).map g = l.map g := by
  induction cs generalizing l with
  | nil => rfl
  | cons c cs ih => simp [List.foldl, ih, hstep]

theorem detectChildren_map {β : Type} (g : Fileinfo → β)
    (hp : ∀ x v, g { x with ParentNode := v } = g x)
    (hc : ∀ x v, g { x with Children := v } = g x)
    (i : Nat) (p : String) (l : List Fileinfo) :
    (detectChildren i p l).map g = l.map g := by
  unfold detectChildren
  apply foldl_map_invariant
  intro acc j
  split
  · rfl
  · split
    · rw [updateAt_map g _ (fun x => hp x _), updateAt_map g _ (fun x => hc x _)]
    · rfl

theorem detectRelativeNodes_map {β : Type} (g : Fileinfo → β)
    (hp : ∀ x v, g { x with ParentNode := v } = g x)
    (hc : ∀ x v, g { x with Children := v } = g x)
    (l : List Fileinfo) :
    (detectRelativeNodes l).map g = l.map g := by
  unfold detectRelativeNodes
  apply foldl_map_invariant
  intro acc i
  split
  · rfl
  · split
    · exact detectChildren_map g hp hc _ _ _
    · rfl

theorem defineNeighborhoods_map {β : Type} (g : Fileinfo → β)
    (hn : ∀ x v, g { x with neighborhood := v } = g x)
    (l : List Fileinfo) :
    (defineNeighborhoods l).map g = l.map g := by
  unfold defineNeighborhoods
  apply foldl_map_invariant
  intro acc i
  split
  · rfl
  · exact updateAt_map g _ (fun x => hn x _) _ _

theorem generateNodeOutputs_map {β : Type} (g : Fileinfo → β)
    (ho : ∀ x v, g { x with output := v } = g x)
    (fuel : Nat) (l r : List Fileinfo) (h : generateNodeOutputs fuel l = some r) :
    r.map g = l.map g := by
  unfold generateNodeOutputs at h
  have key : ∀ (cs : List Nat) (s : Option (List Fileinfo)) (r : List Fileinfo),
      cs.foldl (fun state i =>
        match state with
        | none => none
        | some PathList =>
          match PathList[i]? with
          | none => some PathList
          | some CurrentNode =>
            match generateNodeOutput PathList fuel CurrentNode with
            | none => none
            | some output => some (updateAt (fun node => { node with output := output }) i PathList))
        s = some r → ∃ l0, s = some l0 ∧ r.map g = l0.map g := by
    intro cs
    induction cs with
    | nil => intro s r h; exact ⟨r, h, rfl⟩
    | cons c cs ih =>
      intro s r h
      simp only [List.foldl] at h
      obtain ⟨l1, h1, h2⟩ := ih _ _ h
      cases s with
      | none => simp at h1
      | some l0 =>
        refine ⟨l0, rfl, ?_⟩
        simp only at h1
        split at h1
        · simp at h1; rw [h2, ← h1]
        · split at h1
          · simp at h1
          · simp at h1; rw [h2, ← h1, updateAt_map g _ (fun x => ho x _)]
  obtain ⟨l0, h0, h1⟩ := key _ _ _ h
  simp at h0; rw [h1, ← h0]

/-! ## Lemmas for C16: the order of `sortPaths` -/

theorem char_lt_iff (a b : Char) : a < b ↔ a.toNat < b.toNat := by
  rfl

theorem lessChars_iff (a b : List Char) : lessChars a b = true ↔ List.lt a b := by
  induction a generalizing b with
  | nil =>
    cases b with
    | nil => simp only [lessChars]; constructor
             · intro h; cases h
             · intro h; cases h
    | cons c cs => simp only [lessChars]; exact ⟨fun _ => List.lt.nil _ _, fun _ => trivial⟩
  | cons x xs ih =>
    cases b with
    | nil => simp only [lessChars]; constructor
             · intro h; cases h
             · intro h; cases h
    | cons c cs =>
      simp only [lessChars]
      by_cases h1 : x.toNat < c.toNat
      · simp only [h1, if_true, true_iff]
        exact List.lt.head _ _ ((char_lt_iff x c).2 h1)
      · by_cases h2 : c.toNat < x.toNat
        · simp only [h1, h2, if_true, if_false]
          constructor
          · intro h; cases h
          · intro h
            cases h with
            | head _ _ h => exact absurd ((char_lt_iff x c).1 h) h1
            | tail _ h _ => exact absurd ((char_lt_iff c x).2 h2) h
        · simp only [h1, h2, if_false]
          rw [ih]
          constructor
          · intro h
            exact List.lt.tail (fun h' => h1 ((char_lt_iff x c).1 h')) (fun h' => h2 ((char_lt_iff c x).1 h')) h
          · intro h
            cases h with
            | head _ _ h => exact absurd ((char_lt_iff x c).1 h) h1
            | tail _ _ h => exact h

theorem stringLess_iff (s t : String) : stringLess s t = true ↔ s < t := by
  unfold stringLess
  rw [lessChars_iff, String.lt_iff_toList_lt]
  exact List.lt_iff_lex_lt _ _

theorem stringLess_false_iff (s t : String) : stringLess s t = false ↔ t ≤ s := by
  rw [← not_lt, ← stringLess_iff]
  simp

theorem multiSorterLess_iff (p q : Fileinfo) :
    multiSorterLess [level, filename] p q = true ↔
      p.Level < q.Level ∨ (p.Level = q.Level ∧ p.Name < q.Name) := by
  simp only [multiSorterLess, level, filename, decide_eq_true_eq]
  by_cases h1 : p.Level < q.Level
  · simp [h1]
  · by_cases h2 : q.Level < p.Level
    · simp only [h1, h2, if_true, if_false, false_or]
      constructor
      · intro h; cases h
      · intro h; omega
    · have h3 : p.Level = q.Level := by omega
      simp only [h1, h2, if_false]
      constructor
      · intro h; exact Or.inr ⟨h3, (stringLess_iff _ _).1 h⟩
      · rintro (h | ⟨_, h⟩)
        · exact h.elim
        · exact (stringLess_iff _ _).2 h

theorem multiSorterLess_false_iff (p q : Fileinfo) :
    multiSorterLess [level, filename] p q = false ↔
      q.Level < p.Level ∨ (q.Level = p.Level ∧ q.Name ≤ p.Name) := by
  rw [← Bool.not_eq_true, multiSorterLess_iff]
  constructor
  · intro h
    by_cases h1 : q.Level < p.Level
    · exact Or.inl h1
    · have h2 : ¬ p.Level < q.Level := fun h' => h (Or.inl h')
      have h3 : q.Level = p.Level := by omega
      refine Or.inr ⟨h3, ?_⟩
      exact not_lt.1 (fun h' => h (Or.inr ⟨h3.symm, h'⟩))
  · rintro (h | ⟨h1, h2⟩) (h' | ⟨h3, h4⟩)
    · omega
    · omega
    · omega
    · exact absurd h4 (not_lt.2 h2)

theorem insertionStep_perm (less : Fileinfo → Fileinfo → Bool) (x : Fileinfo) (l : List Fileinfo) :
    (insertionStep less x l).Perm (x :: l) := by
  induction l with
  | nil => exact List.Perm.refl _
  | cons y ys ih =>
    simp only [insertionStep]
    split
    · exact (List.Perm.cons y ih).trans (List.Perm.swap x y ys)
    · exact List.Perm.refl _

theorem insertion_foldl_perm (less : Fileinfo → Fileinfo → Bool) (l acc : List Fileinfo) :
    (l.foldl (fun sorted x => insertionStep less x sorted) acc).Perm (l ++ acc) := by
  induction l generalizing acc with
  | nil => exact List.Perm.refl _
  | cons x xs ih =>
    simp only [List.foldl]
    refine (ih _).trans ?_
    refine (List.Perm.append_left xs (insertionStep_perm less x acc)).trans ?_
    exact List.perm_middle

theorem sortSort_perm (less : Fileinfo → Fileinfo → Bool) (l : List Fileinfo) :
    (sortSort less l).Perm l := by
  unfold sortSort
  refine (List.reverse_perm _).trans ?_
  simpa using insertion_foldl_perm less l []

theorem sortPaths_perm (l : List Fileinfo) : (sortPaths l).Perm l :=
  sortSort_perm _ l

theorem insertionStep_pairwise (less : Fileinfo → Fileinfo → Bool)
    (hasym : ∀ a b, less a b = true → less b a = false)
    (hneg : ∀ a b c, less a b = false → less b c = false → less a c = false)
    (x : Fileinfo) (l : List Fileinfo)
    (h : l.Pairwise (fun a b => less a b = false)) :
    (insertionStep less x l).Pairwise (fun a b => less a b = false) := by
  induction l with
  | nil => simp [insertionStep]
  | cons y ys ih =>
    simp only [insertionStep]
    rw [List.pairwise_cons] at h
    split
    · rename_i hxy
      rw [List.pairwise_cons]
      refine ⟨?_, ih h.2⟩
      intro z hz
      have hz' := (insertionStep_perm less x ys).mem_iff.1 hz
      simp only [List.mem_cons] at hz'
      rcases hz' with rfl | hz'
      · exact hasym _ _ hxy
      · exact h.1 z hz'
    · rename_i hxy
      have hxy' : less x y = false := by simpa using hxy
      rw [List.pairwise_cons]
      refine ⟨?_, List.pairwise_cons.2 h⟩
      intro z hz
      simp only [List.mem_cons] at hz
      rcases hz with rfl | hz
      · exact hxy'
      · exact hneg _ _ _ hxy' (h.1 z hz)

theorem sortSort_pairwise (less : Fileinfo → Fileinfo → Bool)
    (hasym : ∀ a b, less a b = true → less b a = false)
    (hneg : ∀ a b c, less a b = false → less b c = false → less a c = false)
    (l : List Fileinfo) :
    (sortSort less l).Pairwise (fun a b => less b a = false) := by
  unfold sortSort
  rw [List.pairwise_reverse]
  have key : ∀ (xs acc : List Fileinfo), acc.Pairwise (fun a b => less a b = false) →
      (xs.foldl (fun sorted x => insertionStep less x sorted) acc).Pairwise
        (fun a b => less a b = false) := by
    intro xs
    induction xs with
    | nil => intro acc h; exact h
    | cons x xs ih =>
      intro acc h
      exact ih _ (insertionStep_pairwise less hasym hneg x acc h)
  exact key l [] List.Pairwise.nil

theorem sortPaths_sorted (l : List Fileinfo) :
    (sortPaths l).Pairwise
      (fun a b => a.Level < b.Level ∨ (a.Level = b.Level ∧ a.Name ≤ b.Name)) := by
  have h := sortSort_pairwise (multiSorterLess [level, filename])
    (by
      intro a b hab
      rw [multiSorterLess_iff] at hab
      rw [multiSorterLess_false_iff]
      rcases hab with h | ⟨h1, h2⟩
      · exact Or.inl h
      · exact Or.inr ⟨h1, le_of_lt h2⟩)
    (by
      intro a b c hab hbc
      rw [multiSorterLess_false_iff] at hab hbc ⊢
      rcases hab with h | ⟨h1, h2⟩ <;> rcases hbc with h' | ⟨h3, h4⟩
      · exact Or.inl (by omega)
      · exact Or.inl (by omega)
      · exact Or.inl (by omega)
      · exact Or.inr ⟨by omega, le_trans h4 h2⟩)
    l
  refine List.Pairwise.imp ?_ h
  intro a b hab
  exact (multiSorterLess_false_iff b a).1 hab

/-! ## Lemmas for C11, C12 and C13 -/

theorem walkFn_cases (printFiles : Bool) (PathList : List Fileinfo) (item : WalkItem) :
    walkFn printFiles PathList item = PathList ∨
    ∃ e, walkFn printFiles PathList item = PathList ++ [e] ∧
      item.err = false ∧ (printFiles = true ∨ item.isDir = true) ∧
      e.Name = item.name ∧ e.Path = stringsTrim item.path "./" ∧
      e.IsDir = item.isDir ∧ e.Size = sizeString item.size item.isDir ∧
      e.ParentNode = none ∧ e.Children = [] := by
  unfold walkFn
  split
  · rename_i herr
    split
    · exact Or.inl rfl
    · rename_i hskip
      simp only
      split
      · exact Or.inl rfl
      · refine Or.inr ⟨_, rfl, herr, ?_, rfl, rfl, rfl, rfl, rfl, rfl⟩
        by_cases hp : printFiles = true
        · exact Or.inl hp
        · by_cases hd : item.isDir = true
          · exact Or.inr hd
          · exact absurd ⟨by simpa using hp, by simpa using hd⟩ hskip
  · exact Or.inl rfl

theorem getPathListOf_isDir_aux (walk : List WalkItem) (acc : List Fileinfo)
    (h : acc.all (fun e => e.IsDir) = true) :
    (walk.foldl (walkFn false) acc).all (fun e => e.IsDir) = true := by
  induction walk generalizing acc with
  | nil => exact h
  | cons item rest ih =>
    simp only [List.foldl]
    apply ih
    rcases walkFn_cases false acc item with h1 | ⟨e, h1, _, h3, _, _, h6, _⟩
    · rw [h1]; exact h
    · rw [h1, List.all_append, h]
      rcases h3 with h3 | h3
      · cases h3
      · simp [h6, h3]

theorem getPathListOf_isDir (walk : List WalkItem) :
    (getPathListOf walk false).all (fun e => e.IsDir) = true :=
  getPathListOf_isDir_aux walk [] rfl

theorem all_of_map_eq {β : Type} (g : Fileinfo → β) (q : β → Bool) (l r : List Fileinfo)
    (h : r.map g = l.map g) : r.all (fun e => q (g e)) = l.all (fun e => q (g e)) := by
  have h1 : ∀ l : List Fileinfo, l.all (fun e => q (g e)) = (l.map g).all q := by
    intro l; induction l with
    | nil => rfl
    | cons x xs ih => simp [List.all_cons, ih]
  rw [h1, h1, h]

theorem resolvePathList_map {β : Type} (g : Fileinfo → β)
    (hp : ∀ x v, g { x with ParentNode := v } = g x)
    (hc : ∀ x v, g { x with Children := v } = g x)
    (hn : ∀ x v, g { x with neighborhood := v } = g x)
    (ho : ∀ x v, g { x with output := v } = g x)
    (fuel : Nat) (l r : List Fileinfo) (h : resolvePathList fuel l = some r) :
    r.map g = (sortPaths l).map g := by
  unfold resolvePathList at h
  rw [generateNodeOutputs_map g ho fuel _ _ h, defineNeighborhoods_map g hn,
    detectRelativeNodes_map g hp hc]

theorem concatOutputs_append (a b : List Fileinfo) :
    concatOutputs (a ++ b) = concatOutputs a ++ concatOutputs b := by
  induction a with
  | nil => simp [concatOutputs]
  | cons x xs ih => simp [concatOutputs, ih, String.append_assoc]

theorem outputChildren_concat (PathList : List Fileinfo) (fuel : Nat) :
    ∀ (nodes : List Nat) (output r : String),
      outputChildren PathList fuel nodes output = some r →
      ∃ recs : List Fileinfo, (∀ e ∈ recs, e ∈ PathList) ∧ r = output ++ concatOutputs recs := by
  induction fuel with
  | zero => intro nodes output r h; simp [outputChildren] at h
  | succ fuel ih =>
    intro nodes output r h
    cases nodes with
    | nil =>
      simp only [outputChildren, Option.some.injEq] at h
      exact ⟨[], by simp, by simp [concatOutputs, ← h]⟩
    | cons item rest =>
      simp only [outputChildren] at h
      split at h
      · simp at h
      · rename_i node hnode
        split at h
        · simp at h
        · rename_i out1 hout1
          obtain ⟨recs1, hm1, e1⟩ := ih _ _ _ hout1
          obtain ⟨recs2, hm2, e2⟩ := ih _ _ _ h
          refine ⟨node :: recs1 ++ recs2, ?_, ?_⟩
          · intro e he
            simp only [List.cons_append, List.mem_cons, List.mem_append] at he
            rcases he with rfl | he | he
            · exact List.getElem?_mem hnode
            · exact hm1 e he
            · exact hm2 e he
          · rw [e2, e1]
            simp [concatOutputs, concatOutputs_append, String.append_assoc]

/-! ## Lemmas for C15 and C17 -/

theorem ancestorLoop_chain (PathList : List Fileinfo) :
    ∀ (chain : List Fileinfo) (node : Fileinfo) (fuel : Nat) (output : String),
      ancestorChain PathList node chain → chain.length < fuel →
      ancestorLoop PathList fuel node output = some (unitsOf chain ++ output) := by
  intro chain
  induction chain with
  | nil =>
    intro node fuel output hc hf
    cases fuel with
    | zero => simp at hf
    | succ fuel =>
      simp only [ancestorChain] at hc
      simp [ancestorLoop, hc, unitsOf]
  | cons A rest ih =>
    intro node fuel output hc hf
    cases fuel with
    | zero => simp at hf
    | succ fuel =>
      obtain ⟨⟨p, hp, hA⟩, hrest⟩ := hc
      simp only [List.length_cons, Nat.add_lt_add_iff_right] at hf
      simp only [ancestorLoop, hp, hA]
      rw [ih A fuel _ hrest hf]
      simp [unitsOf, indentUnit, String.append_assoc]

theorem generateNodeOutput_chain (PathList : List Fileinfo) (E : Fileinfo)
    (chain : List Fileinfo) (fuel : Nat)
    (hc : ancestorChain PathList E chain) (hf : chain.length < fuel) :
    generateNodeOutput PathList fuel E
      = some (unitsOf chain ++ (branchGlyph E ++ (E.Name ++ E.Size ++ "\n"))) := by
  unfold generateNodeOutput
  exact ancestorLoop_chain PathList chain E fuel _ hc hf

theorem scenarioRecords_resolved :
    resolvePathList 10 (getPathList (some scenarioTree) "testdata" true)
      = some scenarioRecords := by
  decide

/-! ## Lemmas for C19: ranks -/

theorem dropWhile_plain (p : Char → Bool) (N : List Char) (hN : ∀ c ∈ N, p c = false) :
    N.dropWhile p = N := by
  cases N with
  | nil => rfl
  | cons n N' =>
    have hn : p n = false := hN n (List.mem_cons_self _ _)
    rw [List.dropWhile_cons_of_neg (by simp [hn])]

theorem dropWhile_append_sep (p : Char → Bool) (s : Char) (hs : p s = true) (A N : List Char)
    (hne : N ≠ []) (hN : ∀ c ∈ N, p c = false) :
    ∃ T0, (A ++ s :: N).dropWhile p = T0 ++ N ∧
      (A.dropWhile p).length + 1 ≤ (T0 ++ N).length := by
  induction A with
  | nil =>
    refine ⟨[], ?_, ?_⟩
    · rw [List.nil_append, List.dropWhile_cons_of_pos hs, dropWhile_plain p N hN]; rfl
    · cases N with
      | nil => exact absurd rfl hne
      | cons n N' => simp
  | cons a A' ih =>
    by_cases ha : p a = true
    · obtain ⟨T0, h1, h2⟩ := ih
      refine ⟨T0, ?_, ?_⟩
      · rw [List.cons_append, List.dropWhile_cons_of_pos ha]; exact h1
      · rw [List.dropWhile_cons_of_pos ha]; exact h2
    · refine ⟨a :: A' ++ [s], ?_, ?_⟩
      · rw [List.cons_append, List.dropWhile_cons_of_neg ha]; simp
      · rw [List.dropWhile_cons_of_neg ha]; simp

theorem reverse_dropWhile_plain (p : Char → Bool) (T0 N : List Char) (hne : N ≠ [])
    (hN : ∀ c ∈ N, p c = false) :
    (T0 ++ N).reverse.dropWhile p = (T0 ++ N).reverse := by
  rw [List.reverse_append]
  have hr : N.reverse ≠ [] := by simpa using hne
  cases hrev : N.reverse with
  | nil => exact absurd hrev hr
  | cons x rest =>
    have hx : x ∈ N := by
      have : x ∈ N.reverse := by rw [hrev]; exact List.mem_cons_self _ _
      simpa using this
    have hn : p x = false := hN x hx
    rw [List.cons_append, List.dropWhile_cons_of_neg (by simp [hn])]

theorem parentRank_directoryPath (D C : Fileinfo) (hne : D.Name ≠ "")
    (hN : ∀ c ∈ D.Name.data, c ≠ '/') (h : C.Parent = directoryPath D) :
    parentRank D < parentRank C := by
  have hne' : D.Name.data ≠ [] := by
    intro h0; apply hne; cases hD : D.Name; simp_all
  have hs : (fun c => "/".data.contains c) '/' = true := by decide
  have hN' : ∀ c ∈ D.Name.data, (fun c => "/".data.contains c) c = false := by
    intro c hc
    have : c ≠ '/' := hN c hc
    show ['/'].contains c = false
    simpa using this
  obtain ⟨T0, h1, h2⟩ := dropWhile_append_sep _ '/' hs D.Parent.data D.Name.data hne' hN'
  have hdata : (directoryPath D).data = T0 ++ D.Name.data := by
    show ((List.dropWhile _ (D.Parent ++ "/" ++ D.Name).data).reverse.dropWhile _).reverse = _
    have hd : (D.Parent ++ "/" ++ D.Name).data = D.Parent.data ++ '/' :: D.Name.data := by
      simp [String.data_append]
    rw [hd, h1, reverse_dropWhile_plain _ T0 _ hne' hN', List.reverse_reverse]
  unfold parentRank
  rw [h, hdata]
  have hidem : (T0 ++ D.Name.data).dropWhile (fun c => "/".data.contains c) = T0 ++ D.Name.data := by
    rw [← h1]; exact List.dropWhile_idempotent _ _
  rw [hidem]
  exact h2

/-! ## Lemmas for C19: the links built by `detectRelativeNodes` -/

theorem updateAt_getElem? (f : Fileinfo → Fileinfo) (i k : Nat) (l : List Fileinfo) :
    (updateAt f i l)[k]? = if k = i then (l[k]?).map f else l[k]? := by
  induction l generalizing i k with
  | nil => cases i <;> simp [updateAt]
  | cons x xs ih =>
    cases i with
    | zero =>
      cases k with
      | zero => simp [updateAt]
      | succ k => simp [updateAt]
    | succ i =>
      cases k with
      | zero => simp [updateAt]
      | succ k => simp [updateAt, ih]

theorem foldl_invariant {α γ : Type} (P : α → Prop) (step : α → γ → α)
    (hstep : ∀ a c, P a → P (step a c)) (cs : List γ) (a : α) (h : P a) :
    P (cs.foldl step a) := by
  induction cs generalizing a with
  | nil => exact h
  | cons c cs ih => exact ih _ (hstep a c h)

theorem directoryPath_congr (x y : Fileinfo) (hp : x.Parent = y.Parent) (hn : x.Name = y.Name) :
    directoryPath x = directoryPath y := by
  unfold directoryPath; rw [hp, hn]

theorem linkStep_getElem? (i j m : Nat) (acc : List Fileinfo) :
    (updateAt (fun child => { child with ParentNode := some i }) j
      (updateAt (fun dir => { dir with Children := dir.Children ++ [j] }) i acc))[m]?
    = (acc[m]?).map (fun x =>
        { x with
          ParentNode := if m = j then some i else x.ParentNode
          Children := if m = i then x.Children ++ [j] else x.Children }) := by
  rw [updateAt_getElem?, updateAt_getElem?]
  cases h : acc[m]? with
  | none => split_ifs <;> rfl
  | some x =>
    by_cases hj : m = j <;> by_cases hi : m = i
    · simp only [if_pos hj, if_pos hi, Option.map_some']
    · simp only [if_pos hj, if_neg hi, Option.map_some']
    · simp only [if_neg hj, if_pos hi, Option.map_some']
    · simp only [if_neg hj, if_neg hi, Option.map_some']

theorem linkStep_linked (i j : Nat) (acc : List Fileinfo) (D C : Fileinfo)
    (hi : acc[i]? = some D) (hj : acc[j]? = some C) (h : C.Parent = directoryPath D)
    (hl : Linked acc) :
    Linked (updateAt (fun child => { child with ParentNode := some i }) j
      (updateAt (fun dir => { dir with Children := dir.Children ++ [j] }) i acc)) := by
  have look : ∀ (m : Nat) (x : Fileinfo), acc[m]? = some x →
      ∃ x2, (updateAt (fun child => { child with ParentNode := some i }) j
        (updateAt (fun dir => { dir with Children := dir.Children ++ [j] }) i acc))[m]? = some x2 ∧
        x2.Parent = x.Parent ∧ x2.Name = x.Name := by
    intro m x hx
    rw [linkStep_getElem?, hx]
    exact ⟨_, rfl, rfl, rfl⟩
  unfold Linked
  intro k e2 hk
  rw [linkStep_getElem?] at hk
  cases hek : acc[k]? with
  | none => simp [hek] at hk
  | some e =>
    simp only [hek, Option.map_some', Option.some.injEq] at hk
    obtain ⟨hP, hCh⟩ := hl k e hek
    subst hk
    constructor
    · intro p hp
      simp only at hp
      by_cases hkj : k = j
      · simp only [hkj, if_true, Option.some.injEq] at hp
        subst hp
        obtain ⟨D2, hD2, hD2p, hD2n⟩ := look i D hi
        refine ⟨D2, hD2, ?_⟩
        have heC : e = C := by
          rw [hkj, hj] at hek; exact (Option.some.inj hek).symm
        show e.Parent = directoryPath D2
        rw [heC, h]
        exact (directoryPath_congr _ _ hD2p hD2n).symm
      · simp only [hkj, if_false] at hp
        obtain ⟨D0, hD0, hD0e⟩ := hP p hp
        obtain ⟨D2, hD2, hD2p, hD2n⟩ := look p D0 hD0
        refine ⟨D2, hD2, ?_⟩
        show e.Parent = directoryPath D2
        rw [hD0e]
        exact (directoryPath_congr _ _ hD2p hD2n).symm
    · intro j' hj'
      simp only at hj'
      have hdp : directoryPath
          { e with
            ParentNode := if k = j then some i else e.ParentNode
            Children := if k = i then e.Children ++ [j] else e.Children } = directoryPath e := rfl
      rw [hdp]
      have old : j' ∈ e.Children → ∃ C2, (updateAt (fun child => { child with ParentNode := some i }) j
          (updateAt (fun dir => { dir with Children := dir.Children ++ [j] }) i acc))[j']? = some C2 ∧
          C2.Parent = directoryPath e := by
        intro hmem
        obtain ⟨C0, hC0, hC0e⟩ := hCh j' hmem
        obtain ⟨C2, hC2, hC2p, _⟩ := look j' C0 hC0
        exact ⟨C2, hC2, by rw [hC2p, hC0e]⟩
      by_cases hki : k = i
      · simp only [hki, if_true, List.mem_append, List.mem_singleton] at hj'
        rcases hj' with hmem | rfl
        · exact old hmem
        · obtain ⟨C2, hC2, hC2p, _⟩ := look j' C hj
          refine ⟨C2, hC2, ?_⟩
          have heD : e = D := by
            rw [hki, hi] at hek; exact (Option.some.inj hek).symm
          rw [hC2p, h, heD]
      · simp only [hki, if_false] at hj'
        exact old hj'

theorem getElem?_of_map_eq {β : Type} (g : Fileinfo → β) (l r : List Fileinfo)
    (h : r.map g = l.map g) (k : Nat) (x : Fileinfo) (hx : l[k]? = some x) :
    ∃ y, r[k]? = some y ∧ g y = g x := by
  have h1 : (r.map g)[k]? = (l.map g)[k]? := by rw [h]
  rw [List.getElem?_map, List.getElem?_map, hx] at h1
  cases hr : r[k]? with
  | none => simp [hr] at h1
  | some y =>
    simp only [hr, Option.map_some', Option.some.injEq] at h1
    exact ⟨y, rfl, h1⟩

theorem detectChildren_linked (i : Nat) (item : Fileinfo) (PathList : List Fileinfo)
    (hi : PathList[i]? = some item) (hl : Linked PathList) :
    Linked (detectChildren i (directoryPath item) PathList) := by
  unfold detectChildren
  have key := foldl_invariant
    (fun acc : List Fileinfo => Linked acc ∧
      acc.map (fun e => (e.Parent, e.Name)) = PathList.map (fun e => (e.Parent, e.Name)))
    (fun acc j =>
      match acc[j]? with
      | none => acc
      | some subItem =>
        if subItem.Parent = directoryPath item then
          updateAt (fun child => { child with ParentNode := some i }) j
            (updateAt (fun dir => { dir with Children := dir.Children ++ [j] }) i acc)
        else acc)
    (by
      intro acc j ⟨hacc, hmap⟩
      dsimp only
      split
      · exact ⟨hacc, hmap⟩
      · rename_i subItem hsub
        split
        · rename_i hpar
          obtain ⟨D, hD, hDk⟩ := getElem?_of_map_eq (fun e => (e.Parent, e.Name)) _ _ hmap i item hi
          simp only [Prod.mk.injEq] at hDk
          refine ⟨linkStep_linked i j acc D subItem hD hsub ?_ hacc, ?_⟩
          · rw [hpar]; exact (directoryPath_congr _ _ hDk.1 hDk.2).symm
          · exact (updateAt_map (fun e => (e.Parent, e.Name))
              (fun child => { child with ParentNode := some i }) (fun _ => rfl) j _).trans
              ((updateAt_map (fun e => (e.Parent, e.Name))
                (fun dir => { dir with Children := dir.Children ++ [j] }) (fun _ => rfl) i acc).trans
                hmap)
        · exact ⟨hacc, hmap⟩)
    (List.range PathList.length) PathList ⟨hl, rfl⟩
  exact key.1

theorem detectRelativeNodes_linked (l : List Fileinfo) (hl : Linked l) :
    Linked (detectRelativeNodes l) := by
  unfold detectRelativeNodes
  apply foldl_invariant Linked
  · intro acc i hacc
    split
    · exact hacc
    · rename_i item hitem
      split
      · exact detectChildren_linked i item acc hitem hacc
      · exact hacc
  · exact hl

theorem linked_of_fresh (l : List Fileinfo) (h : freshEntries l) : Linked l := by
  unfold Linked
  intro k e hk
  obtain ⟨h1, h2⟩ := h e (List.getElem?_mem hk)
  constructor
  · intro p hp; rw [h1] at hp; cases hp
  · intro j hj; rw [h2] at hj; cases hj

theorem wellRanked_of_linked (l : List Fileinfo) (hl : Linked l) (hn : plainNames l) :
    WellRanked l := by
  unfold WellRanked
  intro k e hk
  obtain ⟨h1, h2⟩ := hl k e hk
  constructor
  · intro p hp
    obtain ⟨D, hD, hDe⟩ := h1 p hp
    obtain ⟨hne, hN⟩ := hn D (List.getElem?_mem hD)
    exact ⟨D, hD, parentRank_directoryPath D e hne hN hDe⟩
  · intro j hj
    obtain ⟨C, hC, hCe⟩ := h2 j hj
    obtain ⟨hne, hN⟩ := hn e (List.getElem?_mem hk)
    exact ⟨C, hC, parentRank_directoryPath e C hne hN hCe⟩

theorem plainNames_of_map_eq (l r : List Fileinfo)
    (h : r.map (fun e => e.Name) = l.map (fun e => e.Name)) (hn : plainNames l) :
    plainNames r := by
  intro e he
  obtain ⟨k, hk⟩ := List.getElem?_of_mem he
  obtain ⟨y, hy, hye⟩ := getElem?_of_map_eq (fun e => e.Name) _ _ h.symm k e hk
  have hn' := hn y (List.getElem?_mem hy)
  have hye' : y.Name = e.Name := hye
  rw [hye'] at hn'
  exact hn'

theorem detectRelativeNodes_wellRanked (l : List Fileinfo) (hn : plainNames l)
    (hf : freshEntries l) : WellRanked (detectRelativeNodes l) := by
  apply wellRanked_of_linked
  · exact detectRelativeNodes_linked l (linked_of_fresh l hf)
  · exact plainNames_of_map_eq l _
      (detectRelativeNodes_map (fun e => e.Name) (fun _ _ => rfl) (fun _ _ => rfl) l) hn

/-! ## Lemmas for C19: no cycle, and the two loops end -/

theorem parentLink_rank (PathList : List Fileinfo) (h : WellRanked PathList) (a b : Nat)
    (hab : Relation.TransGen (parentLink PathList) a b) :
    ((PathList[b]?).map parentRank).getD 0 < ((PathList[a]?).map parentRank).getD 0 := by
  have single : ∀ x y : Nat, parentLink PathList x y →
      ((PathList[y]?).map parentRank).getD 0 < ((PathList[x]?).map parentRank).getD 0 := by
    intro x y ⟨e, he, hp⟩
    obtain ⟨A, hA, hlt⟩ := (h x e he).1 y hp
    simpa [he, hA] using hlt
  induction hab with
  | single hxy => exact single _ _ hxy
  | tail _ hbc ih => exact lt_trans (single _ _ hbc) ih

theorem childLink_rank (PathList : List Fileinfo) (h : WellRanked PathList) (a b : Nat)
    (hab : Relation.TransGen (childLink PathList) a b) :
    ((PathList[a]?).map parentRank).getD 0 < ((PathList[b]?).map parentRank).getD 0 := by
  have single : ∀ x y : Nat, childLink PathList x y →
      ((PathList[x]?).map parentRank).getD 0 < ((PathList[y]?).map parentRank).getD 0 := by
    intro x y ⟨e, he, hc⟩
    obtain ⟨C, hC, hlt⟩ := (h x e he).2 y hc
    simpa [he, hC] using hlt
  induction hab with
  | single hxy => exact single _ _ hxy
  | tail _ hbc ih => exact lt_trans ih (single _ _ hbc)

theorem wellRanked_of_map_eq (l r : List Fileinfo)
    (h : r.map (fun e => (e.Parent, e.ParentNode, e.Children))
      = l.map (fun e => (e.Parent, e.ParentNode, e.Children)))
    (hl : WellRanked l) : WellRanked r := by
  have back : ∀ (k : Nat) (y : Fileinfo), r[k]? = some y →
      ∃ x, l[k]? = some x ∧ x.Parent = y.Parent ∧ x.ParentNode = y.ParentNode ∧
        x.Children = y.Children := by
    intro k y hy
    obtain ⟨x, hx, hxy⟩ := getElem?_of_map_eq _ _ _ h.symm k y hy
    simp only [Prod.mk.injEq] at hxy
    exact ⟨x, hx, hxy.1, hxy.2.1, hxy.2.2⟩
  have forth : ∀ (k : Nat) (x : Fileinfo), l[k]? = some x →
      ∃ y, r[k]? = some y ∧ y.Parent = x.Parent := by
    intro k x hx
    obtain ⟨y, hy, hyx⟩ := getElem?_of_map_eq _ _ _ h k x hx
    simp only [Prod.mk.injEq] at hyx
    exact ⟨y, hy, hyx.1⟩
  have rk : ∀ x y : Fileinfo, x.Parent = y.Parent → parentRank x = parentRank y := by
    intro x y hxy; unfold parentRank; rw [hxy]
  unfold WellRanked
  intro k y hy
  obtain ⟨x, hx, hxp, hxn, hxc⟩ := back k y hy
  obtain ⟨h1, h2⟩ := hl k x hx
  constructor
  · intro p hp
    obtain ⟨A, hA, hlt⟩ := h1 p (hxn.trans hp)
    obtain ⟨A', hA', hAp⟩ := forth p A hA
    exact ⟨A', hA', by rw [rk A' A hAp, ← rk x y hxp]; exact hlt⟩
  · intro j hj
    obtain ⟨C, hC, hlt⟩ := h2 j (hxc ▸ hj)
    obtain ⟨C', hC', hCp⟩ := forth j C hC
    exact ⟨C', hC', by rw [rk C' C hCp, ← rk x y hxp]; exact hlt⟩

theorem ancestorLoop_isSome (Q : List Fileinfo) (h : WellRanked Q) :
    ∀ (fuel : Nat) (node : Fileinfo) (output : String),
      (∃ k : Nat, Q[k]? = some node) → parentRank node < fuel →
      (ancestorLoop Q fuel node output).isSome = true := by
  intro fuel
  induction fuel with
  | zero => intro node output _ hlt; simp at hlt
  | succ fuel ih =>
    intro node output ⟨k, hk⟩ hlt
    simp only [ancestorLoop]
    cases hp : node.ParentNode with
    | none => simp
    | some p =>
      obtain ⟨A, hA, hrank⟩ := (h k node hk).1 p hp
      simp only [hA]
      exact ih A _ ⟨p, hA⟩ (by omega)

theorem generateNodeOutputs_isSome (Q : List Fileinfo) (h : WellRanked Q) (fuel : Nat)
    (hfuel : ∀ e ∈ Q, parentRank e < fuel) :
    ∃ Q1, generateNodeOutputs fuel Q = some Q1 ∧
      Q1.map (fun e => (e.Parent, e.ParentNode, e.Children))
        = Q.map (fun e => (e.Parent, e.ParentNode, e.Children)) := by
  unfold generateNodeOutputs
  apply foldl_invariant
    (fun s : Option (List Fileinfo) => ∃ Q1, s = some Q1 ∧
      Q1.map (fun e => (e.Parent, e.ParentNode, e.Children))
        = Q.map (fun e => (e.Parent, e.ParentNode, e.Children)))
  · intro s i ⟨Q1, hs, hmap⟩
    subst hs
    dsimp only
    cases hi : Q1[i]? with
    | none => exact ⟨Q1, rfl, hmap⟩
    | some CurrentNode =>
      have hw : WellRanked Q1 := wellRanked_of_map_eq Q Q1 hmap h
      have hr : parentRank CurrentNode < fuel := by
        obtain ⟨x, hx, hxy⟩ := getElem?_of_map_eq _ _ _ hmap.symm i CurrentNode hi
        simp only [Prod.mk.injEq] at hxy
        have := hfuel x (List.getElem?_mem hx)
        unfold parentRank at this ⊢
        rw [← hxy.1]; exact this
      have hsome := ancestorLoop_isSome Q1 hw fuel CurrentNode
        ((if CurrentNode.neighborhood.next = none then "└───" else "├───") ++
          (CurrentNode.Name ++ CurrentNode.Size ++ "\n")) ⟨i, hi⟩ hr
      dsimp only
      cases hg : generateNodeOutput Q1 fuel CurrentNode with
      | none =>
        unfold generateNodeOutput at hg
        rw [hg] at hsome
        simp at hsome
      | some output =>
        refine ⟨_, rfl, ?_⟩
        exact (updateAt_map (fun e => (e.Parent, e.ParentNode, e.Children))
          (fun node => { node with output := output }) (fun _ => rfl) i Q1).trans hmap
  · exact ⟨Q, rfl, rfl⟩

theorem outputChildren_isSome (Q : List Fileinfo) (h : WellRanked Q) (M K : Nat)
    (hM : ∀ e ∈ Q, parentRank e < M) (hK : ∀ e ∈ Q, e.Children.length ≤ K) :
    ∀ (fuel H : Nat) (nodes : List Nat) (output : String),
      (∀ i ∈ nodes, ∃ e, Q[i]? = some e ∧ M - parentRank e ≤ H) →
      H * (K + 1) + nodes.length + 1 ≤ fuel →
      (outputChildren Q fuel nodes output).isSome = true := by
  intro fuel
  induction fuel with
  | zero => intro H nodes output _ hb; omega
  | succ fuel ih =>
    intro H nodes output hnodes hb
    cases nodes with
    | nil => simp [outputChildren]
    | cons i rest =>
      obtain ⟨e, he, hH⟩ := hnodes i (List.mem_cons_self _ _)
      have hrank : parentRank e < M := hM e (List.getElem?_mem he)
      have hlen : e.Children.length ≤ K := hK e (List.getElem?_mem he)
      have hH1 : H ≠ 0 := by omega
      obtain ⟨H', hH'⟩ : ∃ H', H = H' + 1 := ⟨H - 1, by omega⟩
      subst hH'
      have e1 : (H' + 1) * (K + 1) = H' * (K + 1) + (K + 1) := Nat.succ_mul _ _
      simp only [List.length_cons] at hb
      have hchildren := ih H' e.Children (output ++ e.output)
        (by
          intro j hj
          obtain ⟨C, hC, hlt⟩ := (h i e he).2 j hj
          have hC' : parentRank C < M := hM C (List.getElem?_mem hC)
          exact ⟨C, hC, by omega⟩)
        (by
          generalize H' * (K + 1) = X at *
          omega)
      simp only [outputChildren, he]
      cases hres : outputChildren Q fuel e.Children (output ++ e.output) with
      | none => rw [hres] at hchildren; simp at hchildren
      | some output1 =>
        simp only
        exact ih (H' + 1) rest output1
          (fun j hj => hnodes j (List.mem_cons_of_mem _ hj))
          (by omega)

theorem filteredTree_valid (Q : List Fileinfo) :
    ∀ i ∈ filteredTree Q, ∃ e, Q[i]? = some e := by
  intro i hi
  unfold filteredTree at hi
  rw [List.mem_filter, List.mem_range] at hi
  exact ⟨Q[i], List.getElem?_eq_getElem hi.1⟩

theorem filteredTree_length (Q : List Fileinfo) : (filteredTree Q).length ≤ Q.length := by
  unfold filteredTree
  exact (List.length_filter_le _ _).trans (by simp)

theorem le_sum_of_mem (f : Fileinfo → Nat) (l : List Fileinfo) (e : Fileinfo) (he : e ∈ l) :
    f e ≤ (l.map f).sum := by
  induction l with
  | nil => cases he
  | cons x xs ih =>
    simp only [List.map_cons, List.sum_cons]
    rcases List.mem_cons.1 he with rfl | h
    · omega
    · have := ih h; omega

theorem mem_of_map_eq {β : Type} (g : Fileinfo → β) (l r : List Fileinfo)
    (h : r.map g = l.map g) (e : Fileinfo) (he : e ∈ r) : ∃ x, x ∈ l ∧ g x = g e := by
  obtain ⟨k, hk⟩ := List.getElem?_of_mem he
  obtain ⟨x, hx, hxe⟩ := getElem?_of_map_eq g r l h.symm k e hk
  exact ⟨x, List.getElem?_mem hx, hxe⟩

theorem renderPathList_isSome (l : List Fileinfo) (hn : plainNames l) (hf : freshEntries l) :
    ∃ N, ∀ fuel, N ≤ fuel →
      ∃ outputList out, resolvePathList fuel l = some outputList ∧
        renderPathList fuel l = some out := by
  have hnS : plainNames (sortPaths l) := fun e he => hn e ((sortPaths_perm l).mem_iff.1 he)
  have hfS : freshEntries (sortPaths l) := fun e he => hf e ((sortPaths_perm l).mem_iff.1 he)
  have hD : WellRanked (detectRelativeNodes (sortPaths l)) :=
    detectRelativeNodes_wellRanked _ hnS hfS
  have hmap0 := defineNeighborhoods_map (fun e => (e.Parent, e.ParentNode, e.Children))
    (fun _ _ => rfl) (detectRelativeNodes (sortPaths l))
  have hQ0 : WellRanked (defineNeighborhoods (detectRelativeNodes (sortPaths l))) :=
    wellRanked_of_map_eq _ _ hmap0 hD
  refine ⟨((detectRelativeNodes (sortPaths l)).map parentRank).sum + 1 +
    (((detectRelativeNodes (sortPaths l)).map parentRank).sum + 1) *
      (((detectRelativeNodes (sortPaths l)).map (fun e => e.Children.length)).sum + 1) +
    (detectRelativeNodes (sortPaths l)).length + 1, ?_⟩
  intro fuel hfuel
  generalize hDdef : detectRelativeNodes (sortPaths l) = D at *
  generalize hMdef : (D.map parentRank).sum + 1 = M at *
  generalize hKdef : (D.map (fun e => e.Children.length)).sum = K at *
  have rankD : ∀ (r : List Fileinfo),
      r.map (fun e => (e.Parent, e.ParentNode, e.Children))
        = D.map (fun e => (e.Parent, e.ParentNode, e.Children)) →
      (∀ e ∈ r, parentRank e < M) ∧ (∀ e ∈ r, e.Children.length ≤ K) := by
    intro r hr
    constructor
    · intro e he
      obtain ⟨x, hx, hxe⟩ := mem_of_map_eq _ D r hr e he
      simp only [Prod.mk.injEq] at hxe
      have h1 := le_sum_of_mem parentRank D x hx
      have h2 : parentRank e = parentRank x := by unfold parentRank; rw [hxe.1]
      omega
    · intro e he
      obtain ⟨x, hx, hxe⟩ := mem_of_map_eq _ D r hr e he
      simp only [Prod.mk.injEq] at hxe
      have h1 := le_sum_of_mem (fun e => e.Children.length) D x hx
      simp only at h1
      rw [← hxe.2.2]
      omega
  have hfuelM : M ≤ fuel := by
    generalize M * (K + 1) = X at *
    omega
  obtain ⟨Q1, hQ1, hmap1⟩ := generateNodeOutputs_isSome (defineNeighborhoods D) hQ0 fuel
    (fun e he => lt_of_lt_of_le ((rankD _ hmap0).1 e he) hfuelM)
  have hmapQ1 := hmap1.trans hmap0
  have hW1 : WellRanked Q1 := wellRanked_of_map_eq _ _ hmapQ1 hD
  have hlen : Q1.length = D.length := by
    have := congrArg List.length hmapQ1
    simpa using this
  have hout := outputChildren_isSome Q1 hW1 M K (rankD Q1 hmapQ1).1 (rankD Q1 hmapQ1).2
    fuel M (filteredTree Q1) ""
    (by
      intro i hi
      obtain ⟨e, he⟩ := filteredTree_valid Q1 i hi
      exact ⟨e, he, by omega⟩)
    (by
      have := filteredTree_length Q1
      generalize M * (K + 1) = X at *
      omega)
  have hres : resolvePathList fuel l = some Q1 := by
    unfold resolvePathList
    rw [hDdef]; exact hQ1
  cases hfin : outputChildren Q1 fuel (filteredTree Q1) "" with
  | none => rw [hfin] at hout; simp at hout
  | some out =>
    refine ⟨Q1, out, hres, ?_⟩
    unfold renderPathList
    rw [hres]
    exact hfin

theorem ancestorLoop_loop (Q : List Fileinfo) (A : Fileinfo) (hA : Q[0]? = some A)
    (hp : A.ParentNode = some 0) :
    ∀ (fuel : Nat) (node : Fileinfo) (output : String), node.ParentNode = some 0 →
      ancestorLoop Q fuel node output = none := by
  intro fuel
  induction fuel with
  | zero => intro node output _; rfl
  | succ fuel ih =>
    intro node output hnode
    simp only [ancestorLoop, hnode, hA]
    exact ih A _ hp

theorem outputChildren_loop (Q : List Fileinfo) (A : Fileinfo) (hA : Q[0]? = some A)
    (hc : A.Children = [0]) :
    ∀ (fuel : Nat) (rest : List Nat) (output : String),
      outputChildren Q fuel (0 :: rest) output = none := by
  intro fuel
  induction fuel with
  | zero => intro rest output; rfl
  | succ fuel ih =>
    intro rest output
    simp only [outputChildren, hA, hc, ih]

theorem loopEntry_linked :
    defineNeighborhoods (detectRelativeNodes (sortPaths [loopEntry])) = [loopLinked] ∧
    detectRelativeNodes [loopEntry] = [loopLinked] := by
  decide

/-! ## The claims, continued -/

/-- C11: with `printFiles` false every record `getPathList` returns is a
directory, whatever the walk reports; the records stay directories through
the passes of `dirTree`, and the text `dirTree` writes is made of the
fragments of such records only. -/
theorem C11_without_files_only_directories (entries : Option (List FsNode)) (path : String)
    (fuel : Nat) :
    (∀ walk : List WalkItem, (getPathListOf walk false).all (fun e => e.IsDir) = true) ∧
    (getPathList entries path false).all (fun e => e.IsDir) = true ∧
    (∀ r, dirTree fuel entries path false = some r →
      ∃ outputList recs, resolvePathList fuel (getPathList entries path false) = some outputList ∧
        (∀ e ∈ outputList, e.IsDir = true) ∧ (∀ e ∈ recs, e ∈ outputList) ∧
        r.written = concatOutputs recs) := by
  refine ⟨getPathListOf_isDir, getPathListOf_isDir _, ?_⟩
  intro r h
  unfold dirTree renderPathList at h
  cases hres : resolvePathList fuel (getPathList entries path false) with
  | none => simp [hres] at h
  | some outputList =>
    simp only [hres] at h
    split at h
    · simp at h
    · rename_i output hout
      obtain ⟨recs, hm, e⟩ := outputChildren_concat _ _ _ _ _ hout
      have hmap := resolvePathList_map (fun e => e.IsDir) (fun _ _ => rfl) (fun _ _ => rfl)
        (fun _ _ => rfl) (fun _ _ => rfl) fuel _ _ hres
      have hall : outputList.all (fun e => e.IsDir) = true := by
        have h1 := all_of_map_eq (fun e => e.IsDir) id _ _ hmap
        simp only [id] at h1
        rw [h1]
        have h2 := getPathListOf_isDir (filepathWalk path entries)
        rw [List.all_eq_true] at h2 ⊢
        intro x hx
        exact h2 x ((sortPaths_perm _).mem_iff.1 hx)
      refine ⟨outputList, recs, rfl, ?_, hm, ?_⟩
      · intro e he
        exact (List.all_eq_true.1 hall) e he
      · simp only [Option.some.injEq] at h
        rw [← h, e]
        simp

/-- Witness of C11 on the directory holding `a/x.txt` and `b`. -/
theorem C11_without_files_only_directories_witness :
    ∃ outputList recs, resolvePathList 10 (getPathList (some scenarioTree) "testdata" false)
        = some outputList ∧
      (∀ e ∈ outputList, e.IsDir = true) ∧ (∀ e ∈ recs, e ∈ outputList) ∧
      "├───a\n└───b\n" = concatOutputs recs :=
  (C11_without_files_only_directories (some scenarioTree) "testdata" 10).2.2
    { written := "├───a\n└───b\n", err := none } (by decide)

/-- C12: the `Size` string is empty for a directory, ` (empty)` for a file
of 0 bytes, and ` (Nb)` with `N` in decimal for a file of `N > 0` bytes;
every record `getPathList` builds carries this string. -/
theorem C12_size_string :
    (∀ N : Int, sizeString N true = "") ∧
    sizeString 0 false = " (empty)" ∧
    (∀ n : Nat, sizeString ((n : Int) + 1) false = " (" ++ toString (n + 1) ++ "b)") ∧
    sizeString 1024 false = " (1024b)" ∧
    (∀ (printFiles : Bool) (PathList : List Fileinfo) (item : WalkItem),
      walkFn printFiles PathList item = PathList ∨
      ∃ e, walkFn printFiles PathList item = PathList ++ [e] ∧
        e.Size = sizeString item.size item.isDir) := by
  refine ⟨fun N => by simp [sizeString], by decide, ?_, by decide, ?_⟩
  · intro n
    have h1 : ((n : Int) + 1) > 0 := by omega
    have h2 : ¬ ((n : Int) + 1 < 0) := by omega
    have h3 : ((n : Int) + 1).natAbs = n + 1 := by omega
    simp [sizeString, formatInt, h1, h2, h3]
  · intro printFiles PathList item
    rcases walkFn_cases printFiles PathList item with h | ⟨e, h, _, _, _, _, _, hs, _⟩
    · exact Or.inl h
    · exact Or.inr ⟨e, h, hs⟩

/-- C13 (as the code behaves): when the walk reports an error for the
root, `dirTree` returns `nil`. -/
theorem C13_missing_root_returns_nil :
    (dirTree 1 none "missing" false).map (fun r => r.err) = some none := by
  decide

/-- C13 (amended): when the root cannot be read (the walk reports an error
for the root), `dirTree` writes nothing and returns a `nil` error, for
every path and both values of `printFiles`; and `dirTree` never returns an
error. -/
theorem C13_unreadable_root_writes_nothing_returns_nil :
    (∀ (fuel : Nat) (path : String) (printFiles : Bool),
      dirTree (fuel + 1) none path printFiles = some { written := "", err := none }) ∧
    (∀ (fuel : Nat) (entries : Option (List FsNode)) (path : String) (printFiles : Bool),
      (dirTree fuel entries path printFiles).all (fun r => r.err = none) = true) := by
  constructor
  · intro fuel path printFiles
    rfl
  · intro fuel entries path printFiles
    unfold dirTree
    split <;> simp

/-- C14: after `detectRelativeNodes` every entry whose `Parent` is the path
of a directory `D` should be in `D.Children` and have `D` as `ParentNode`.
For the root `.` holding `a/b/x` and `c/b` the sorted records are `a/b`,
`c/b`, `a/b/x`; the record of `x` is in the `Children` of both directories,
and its `ParentNode` is the record of `c/b` (index 1), not the record of
`a/b` (index 0) whose path its `Parent` equals as well.  The same happens
for the root `testdata` holding `.../c`, `a/...` and `b/...`. -/
theorem C14_child_of_two_directories :
    (detectRelativeNodes (sortPaths (getPathList (some twoBranchTree) "." false))).map
        (fun e => (e.Path, e.Parent, directoryPath e))
      = [("a/b", "", "b"), ("c/b", "", "b"), ("a/b/x", "b", "b/x")] ∧
    (detectRelativeNodes (sortPaths (getPathList (some twoBranchTree) "." false))).map
        (fun e => e.Children) = [[2], [2], []] ∧
    (detectRelativeNodes (sortPaths (getPathList (some twoBranchTree) "." false))).map
        (fun e => e.ParentNode) = [none, none, some 1] ∧
    (detectRelativeNodes (sortPaths (getPathList (some threeDotsTree) "testdata" false))).map
        (fun e => (e.Path, e.Parent, directoryPath e))
      = [("testdata/a", "", "..."), ("testdata/b", "", "..."), ("testdata/a", "", "a"),
         ("testdata/b", "", "b"), ("testdata/.../c", "...", ".../c")] ∧
    (detectRelativeNodes (sortPaths (getPathList (some threeDotsTree) "testdata" false))).map
        (fun e => e.Children) = [[4], [4], [], [], []] ∧
    (detectRelativeNodes (sortPaths (getPathList (some threeDotsTree) "testdata" false))).map
        (fun e => e.ParentNode) = [none, none, none, none, some 1] := by
  decide

/-- C15: the text `generateNodeOutput` puts before the branch glyph of a
record `E` is the concatenation, from the furthest ancestor down to the
direct parent, of one unit per record of the `ParentNode` chain of `E`:
`│\t` for an ancestor with a next sibling, `\t` for a last child
(`unitsOf`).  The result is produced as soon as the fuel exceeds the length
of the chain. -/
theorem C15_indentation_follows_ancestors (PathList : List Fileinfo) (E : Fileinfo)
    (chain : List Fileinfo) (fuel : Nat)
    (hchain : ancestorChain PathList E chain) (hfuel : chain.length < fuel) :
    generateNodeOutput PathList fuel E
      = some (unitsOf chain ++ (branchGlyph E ++ (E.Name ++ E.Size ++ "\n"))) :=
  generateNodeOutput_chain PathList E chain fuel hchain hfuel

/-- Witness of C15: the record of `x.txt`, whose only ancestor `a` has a
next sibling. -/
theorem C15_indentation_follows_ancestors_witness :
    ancestorChain scenarioRecords recordX [recordA] ∧
    [recordA].length < 2 ∧
    unitsOf [recordA] = "│\t" ∧
    generateNodeOutput scenarioRecords 2 recordX
      = some (unitsOf [recordA] ++ (branchGlyph recordX ++ (recordX.Name ++ recordX.Size ++ "\n"))) :=
  ⟨⟨⟨0, rfl, rfl⟩, rfl⟩, by decide, by decide,
    C15_indentation_follows_ancestors scenarioRecords recordX [recordA] 2
      ⟨⟨0, rfl, rfl⟩, rfl⟩ (by decide)⟩

/-- C16: `sortPaths` leaves a permutation of its input in which, for every
two positions `i < j`, either `Level[i] < Level[j]`, or the levels are equal
and `Name[i] ≤ Name[j]` in the lexicographic order of the strings
(`List.Pairwise` states the property for every two positions in order). -/
theorem C16_sortPaths_sorted_permutation (l : List Fileinfo) :
    (sortPaths l).Perm l ∧
    (sortPaths l).Pairwise
      (fun a b => a.Level < b.Level ∨ (a.Level = b.Level ∧ a.Name ≤ b.Name)) :=
  ⟨sortPaths_perm l, sortPaths_sorted l⟩

/-- C17 (as the code behaves): the base line has no space before the
newline: the fragment of `b`, a record without ancestor, is `└───b\n`. -/
theorem C17_no_space_before_newline :
    generateNodeOutput scenarioRecords 1 recordB = some "└───b\n" ∧
    generateNodeOutput scenarioRecords 1 recordB
      ≠ some (branchGlyph recordB ++ recordB.Name ++ recordB.Size ++ " " ++ "\n") := by
  decide

/-- C17 (amended): the base line `generateNodeOutput` builds is the branch
glyph, then the name, then the size string, then a newline character,
with no space in between; the fragment is this base line after the
indentation, and the base line alone for a record without ancestor. -/
theorem C17_base_line (PathList : List Fileinfo) (E : Fileinfo)
    (chain : List Fileinfo) (fuel : Nat)
    (hchain : ancestorChain PathList E chain) (hfuel : chain.length < fuel) :
    ∃ indentation : String,
      generateNodeOutput PathList fuel E
        = some (indentation ++
            ((if E.neighborhood.next = none then "└───" else "├───") ++
              (E.Name ++ E.Size ++ "\n"))) ∧
      (chain = [] → indentation = "") := by
  refine ⟨unitsOf chain, generateNodeOutput_chain PathList E chain fuel hchain hfuel, ?_⟩
  intro h
  rw [h]
  rfl

/-- Witness of C17: the record of `b`, which has no ancestor. -/
theorem C17_base_line_witness :
    ancestorChain scenarioRecords recordB [] ∧
    ([] : List Fileinfo).length < 1 ∧
    ∃ indentation : String,
      generateNodeOutput scenarioRecords 1 recordB
        = some (indentation ++
            ((if recordB.neighborhood.next = none then "└───" else "├───") ++
              (recordB.Name ++ recordB.Size ++ "\n"))) ∧
      (([] : List Fileinfo) = [] → indentation = "") :=
  ⟨rfl, by decide, C17_base_line scenarioRecords recordB [] 1 rfl (by decide)⟩

/-- C18: the `Path` of a record should be the path the walk reported, so
that two objects of one directory never share it.  For the root `testdata`
holding the directories `a` and `a.` the walk reports `testdata/a` and
`testdata/a.`, and both records get the `Path` `testdata/a`; for the root
`/tmp/x` holding `a` the walk reports `/tmp/x/a` and the record gets the
`Path` `tmp/x/a`. -/
theorem C18_path_differs_from_reported_path :
    (filepathWalk "testdata" (some trailingDotTree)).map (fun w => w.path)
      = ["testdata", "testdata/a", "testdata/a."] ∧
    (getPathList (some trailingDotTree) "testdata" false).map (fun e => (e.Name, e.Path))
      = [("a", "testdata/a"), ("a.", "testdata/a")] ∧
    (filepathWalk "/tmp/x" (some [.dir "a" []])).map (fun w => w.path)
      = ["/tmp/x", "/tmp/x/a"] ∧
    (getPathList (some [.dir "a" []]) "/tmp/x" false).map (fun e => (e.Name, e.Path))
      = [("x", "tmp/x"), ("a", "tmp/x/a")] := by
  decide

/-- C19: when every `Name` is non-empty and holds no separator (and the
records carry no link yet, as `getPathList` builds them), the links
`detectRelativeNodes` builds have no cycle, neither through `ParentNode` nor
through `Children`, and with enough fuel the ancestor walk of
`generateNodeOutput` and the recursion of `outputChildren` both end: the
pipeline returns its records and its output.  The list made of one
directory record with an empty `Name` and an empty `Parent` is linked to
itself, as parent and as child, and neither loop ends on it, whatever the
fuel. -/
theorem C19_links_acyclic_and_loops_end :
    (∀ l : List Fileinfo, plainNames l → freshEntries l →
      (∀ i, ¬ Relation.TransGen (parentLink (detectRelativeNodes l)) i i) ∧
      (∀ i, ¬ Relation.TransGen (childLink (detectRelativeNodes l)) i i) ∧
      ∃ N, ∀ fuel, N ≤ fuel →
        ∃ outputList out, resolvePathList fuel l = some outputList ∧
          renderPathList fuel l = some out) ∧
    (loopEntry.Name = "" ∧ loopEntry.Parent = "" ∧ freshEntries [loopEntry] ∧
      detectRelativeNodes [loopEntry] = [loopLinked] ∧
      parentLink (detectRelativeNodes [loopEntry]) 0 0 ∧
      childLink (detectRelativeNodes [loopEntry]) 0 0 ∧
      (∀ fuel, generateNodeOutput (detectRelativeNodes [loopEntry]) fuel loopLinked = none) ∧
      (∀ fuel output, outputChildren (detectRelativeNodes [loopEntry]) fuel [0] output = none) ∧
      (∀ fuel, renderPathList fuel [loopEntry] = none)) := by
  constructor
  · intro l hn hf
    have hW := detectRelativeNodes_wellRanked l hn hf
    refine ⟨?_, ?_, renderPathList_isSome l hn hf⟩
    · intro i hi
      exact lt_irrefl _ (parentLink_rank _ hW i i hi)
    · intro i hi
      exact lt_irrefl _ (childLink_rank _ hW i i hi)
  · have hd : detectRelativeNodes [loopEntry] = [loopLinked] := loopEntry_linked.2
    refine ⟨rfl, rfl, ?_, hd, ?_, ?_, ?_, ?_, ?_⟩
    · intro e he
      simp only [List.mem_singleton] at he
      subst he
      exact ⟨rfl, rfl⟩
    · rw [hd]; exact ⟨loopLinked, rfl, rfl⟩
    · rw [hd]; exact ⟨loopLinked, rfl, by simp [loopLinked]⟩
    · intro fuel
      rw [hd]
      unfold generateNodeOutput
      exact ancestorLoop_loop [loopLinked] loopLinked rfl rfl fuel loopLinked _ rfl
    · intro fuel output
      rw [hd]
      exact outputChildren_loop [loopLinked] loopLinked rfl rfl fuel [] output
    · intro fuel
      unfold renderPathList resolvePathList
      rw [loopEntry_linked.1]
      have hg : generateNodeOutput [loopLinked] fuel loopLinked = none := by
        unfold generateNodeOutput
        exact ancestorLoop_loop [loopLinked] loopLinked rfl rfl fuel loopLinked _ rfl
      have hgen : generateNodeOutputs fuel [loopLinked] = none := by
        show (match generateNodeOutput [loopLinked] fuel loopLinked with
          | none => none
          | some output =>
            some (updateAt (fun node => { node with output := output }) 0 [loopLinked])) = none
        rw [hg]
      rw [hgen]

/-- Witness of C19: the records collected for the directory holding
`a/x.txt` and `b`. -/
theorem C19_links_acyclic_and_loops_end_witness :
    plainNames scenarioEntries ∧ freshEntries scenarioEntries ∧
    ((∀ i, ¬ Relation.TransGen (parentLink (detectRelativeNodes scenarioEntries)) i i) ∧
      (∀ i, ¬ Relation.TransGen (childLink (detectRelativeNodes scenarioEntries)) i i) ∧
      ∃ N, ∀ fuel, N ≤ fuel →
        ∃ outputList out, resolvePathList fuel scenarioEntries = some outputList ∧
          renderPathList fuel scenarioEntries = some out) :=
  ⟨by unfold plainNames; decide, by unfold freshEntries; decide,
    C19_links_acyclic_and_loops_end.1 scenarioEntries
      (by unfold plainNames; decide) (by unfold freshEntries; decide)⟩

end DirTree
